import Mathlib

/-! Verification of the rolling-median crate.

This file gives a shallow embedding of the crate's core: the two-heap
online median engine `Median<T>` from src/lib.rs and the floating-point
helper types from src/float_utils.rs, together with proofs of the
specified properties.

Modelling conventions:
* `BinaryHeap<T>` over a total order is observably a sorted multiset
  (`peek` returns a greatest element, `pop` removes it, `push` inserts),
  so each heap is modelled as a sorted list; sortedness is carried by the
  state invariant `Inv` rather than baked into the type.
* Rust methods taking `&mut self` and returning a `Result` are modelled
  as functions returning (result, state after the call).
* `usize` arithmetic is modelled on `Nat` with the explicit bound
  `USIZE_MAX = 2 ^ 64 - 1` where the source uses checked or saturating
  operations.
-/

deriving instance DecidableEq for Except

namespace RollingMedian

/-- Error type of the crate (src/lib.rs line 52, `pub struct InvalidValue`):
indicates that the given value was invalid (an attempt to insert NaN). -/
inductive InvalidValue : Type where
  | mk : InvalidValue
deriving DecidableEq

/-- State of `Median<T>` (src/lib.rs lines 92-95): `heap_lo` is the max-heap
of the lower half (modelled as a list sorted in decreasing order, head =
maximum) and `heap_hi` is the min-heap `BinaryHeap<Reverse<_>>` of the upper
half (modelled as a list sorted in increasing order, head = minimum). -/
structure Median (α : Type) where
  heap_lo : List α
  heap_hi : List α
deriving DecidableEq

variable {α : Type}

/-- Model of `BinaryHeap::push` on the max-heap `heap_lo`: ordered insertion
into a sorted-decreasing list. -/
def heapPushLo [LinearOrder α] (v : α) (l : List α) : List α :=
  List.orderedInsert (· ≥ ·) v l

/-- Model of `BinaryHeap::push` on the min-heap `heap_hi`: ordered insertion
into a sorted-increasing list. -/
def heapPushHi [LinearOrder α] (v : α) (l : List α) : List α :=
  List.orderedInsert (· ≤ ·) v l

/-- Model of `Median::new` (src/lib.rs lines 99-101): two empty heaps. -/
def Median.new : Median α := ⟨[], []⟩

/-- Placement step of `Median::push` (src/lib.rs lines 113-117): if
`heap_lo` is empty (`peek()` is `None`, so `map_or` yields `true`) or the
new value compares `<=` the top of `heap_lo`, push onto `heap_lo`;
otherwise push onto `heap_hi`. -/
def Median.placeVal [LinearOrder α] (m : Median α) (v : α) : Median α :=
  match m.heap_lo.head? with
  | none => { m with heap_lo := heapPushLo v m.heap_lo }
  | some p =>
    if v ≤ p then { m with heap_lo := heapPushLo v m.heap_lo }
    else { m with heap_hi := heapPushHi v m.heap_hi }

/-- Rebalancing step of `Median::push` (src/lib.rs lines 119-127): if
`heap_lo` holds more than `heap_hi.len() + 1` elements, move the top of
`heap_lo` over to `heap_hi`; else if `heap_hi` is strictly larger than
`heap_lo`, move the top of `heap_hi` over to `heap_lo`. A `pop()` returning
`None` (the `if let` falling through) leaves the state unchanged. -/
def Median.rebalance [LinearOrder α] (m : Median α) : Median α :=
  if m.heap_hi.length + 1 < m.heap_lo.length then
    match m.heap_lo with
    | [] => m
    | x :: rest => ⟨rest, heapPushHi x m.heap_hi⟩
  else if m.heap_lo.length < m.heap_hi.length then
    match m.heap_hi with
    | [] => m
    | x :: rest => ⟨heapPushLo x m.heap_lo, rest⟩
  else m

/-- Successful path of `Median::push`: placement followed by rebalancing. -/
def Median.pushVal [LinearOrder α] (m : Median α) (v : α) : Median α :=
  (m.placeVal v).rebalance

/-- Model of `Median::push` (src/lib.rs lines 108-130). Rust mutates
`&mut self` and returns `Result<(), InvalidValue>`; the model returns the
pair (result, state after the call). A NaN argument is rejected up front,
before anything is touched, so the incoming state is returned as is. -/
def Median.push [LinearOrder α] (isNaN : α → Bool) (m : Median α) (v : α) :
    Except InvalidValue Unit × Median α :=
  if isNaN v then (Except.error InvalidValue.mk, m)
  else (Except.ok (), m.pushVal v)

/-- Pushes a whole list of values in order, stopping at the first error,
the way the crate's example and tests drive the engine. -/
def Median.pushAll [LinearOrder α] (isNaN : α → Bool) (m : Median α) :
    List α → Except InvalidValue (Median α)
  | [] => Except.ok m
  | v :: vs =>
    match m.push isNaN v with
    | (Except.ok _, m') => m'.pushAll isNaN vs
    | (Except.error e, _) => Except.error e

/-- Model of `Median::get` (src/lib.rs lines 137-147): `None` when `heap_lo`
is empty; the midpoint of the two heap tops when the heaps have equal size;
otherwise the top of `heap_lo`. The source's `peek().unwrap()` calls are
modelled with `head?`; the impossible `unwrap` of an empty `heap_hi`
(never reached from a well-formed state) yields `none`. -/
def Median.get (mid : α → α → α) (m : Median α) : Option α :=
  if m.heap_lo.isEmpty then none
  else if m.heap_lo.length = m.heap_hi.length then
    match m.heap_lo.head?, m.heap_hi.head? with
    | some a, some b => some (mid a b)
    | _, _ => none
  else m.heap_lo.head?

/-- Largest value of Rust's `usize` on the 64-bit targets the crate is
built for. -/
def USIZE_MAX : Nat := 2 ^ 64 - 1

/-- Model of `usize::saturating_add`. -/
def usizeSatAdd (a b : Nat) : Nat := min (a + b) USIZE_MAX

/-- Model of `usize::checked_add`: `none` models overflow. -/
def usizeCheckedAdd (a b : Nat) : Option Nat :=
  if a + b ≤ USIZE_MAX then some (a + b) else none

/-- Model of `Median::len` (src/lib.rs lines 150-152):
`heap_lo.len().saturating_add(heap_hi.len())`. -/
def Median.len (m : Median α) : Nat :=
  usizeSatAdd m.heap_lo.length m.heap_hi.length

/-- Model of `Median::is_empty` (src/lib.rs lines 155-157). -/
def Median.is_empty (m : Median α) : Bool :=
  m.heap_lo.isEmpty && m.heap_hi.isEmpty

/-- Model of `Median::clear` (src/lib.rs lines 160-163): empties both
heaps. -/
def Median.clear (_m : Median α) : Median α := ⟨[], []⟩

/-- Multiset of all stored values, as a list. -/
def Median.contents (m : Median α) : List α := m.heap_lo ++ m.heap_hi

/-- Reference median oracle (mirrors `compute_median` in
tests/median_test.rs and spec §8): fully sort the inputs, then take the
middle element for an odd count, or the midpoint of the two middle
elements for an even count. Empty input yields `none`. -/
def medianRef [LinearOrder α] (mid : α → α → α) (l : List α) : Option α :=
  if l.length % 2 = 1 then (List.insertionSort (· ≤ ·) l)[l.length / 2]?
  else
    match (List.insertionSort (· ≤ ·) l)[l.length / 2 - 1]?,
        (List.insertionSort (· ≤ ·) l)[l.length / 2]? with
    | some a, some b => some (mid a b)
    | _, _ => none

/-- Well-formedness of an engine state: both heap models are sorted
(decreasing for `heap_lo`, increasing for `heap_hi`), every element of the
lower heap is `≤` every element of the upper heap, and the sizes differ by
at most one in favour of `heap_lo` (the invariants of spec §3). -/
structure Inv [LinearOrder α] (m : Median α) : Prop where
  sorted_lo : m.heap_lo.Sorted (· ≥ ·)
  sorted_hi : m.heap_hi.Sorted (· ≤ ·)
  part : ∀ x ∈ m.heap_lo, ∀ y ∈ m.heap_hi, x ≤ y
  size_lo : m.heap_lo.length ≤ m.heap_hi.length + 1
  size_hi : m.heap_hi.length ≤ m.heap_lo.length

/-- Relaxed shape holding between the placement and rebalancing steps of
`push`: the size gap may temporarily be two (or minus one). -/
structure PreInv [LinearOrder α] (m : Median α) : Prop where
  sorted_lo : m.heap_lo.Sorted (· ≥ ·)
  sorted_hi : m.heap_hi.Sorted (· ≤ ·)
  part : ∀ x ∈ m.heap_lo, ∀ y ∈ m.heap_hi, x ≤ y
  size_lo : m.heap_lo.length ≤ m.heap_hi.length + 2
  size_hi : m.heap_hi.length ≤ m.heap_lo.length + 1

/-- Engine states reachable from a fresh engine through the public
operations (`push`, including failed pushes, and `clear`). -/
inductive Reachable [LinearOrder α] (isNaN : α → Bool) : Median α → Prop where
  | new : Reachable isNaN Median.new
  | push (m : Median α) (v : α) :
      Reachable isNaN m → Reachable isNaN (m.push isNaN v).2
  | clear (m : Median α) : Reachable isNaN m → Reachable isNaN m.clear

/-- Idealized IEEE floating-point value domain shared by the `f32` and
`f64` instantiations: NaN, the two infinities, and finite values. Finite
values are carried as exact rationals; rounding is not modelled (every
arithmetic step the claims exercise is exact), and the two IEEE zeros are
identified, since every operation of src/lib.rs treats them numerically.
The signed-zero distinction matters only to the total order of
src/float_utils.rs, modelled separately below as `FC`. -/
inductive F : Type where
  | nan : F
  | negInf : F
  | posInf : F
  | fin : ℚ → F
deriving DecidableEq

/-- Model of `f32::is_nan` / `f64::is_nan`. -/
def F.isNaN : F → Bool
  | .nan => true
  | _ => false

/-- Model of `is_infinite`. -/
def F.isInfinite : F → Bool
  | .negInf => true
  | .posInf => true
  | _ => false

/-- Model of `signum`; src/lib.rs (lines 68 and 80) only ever compares the
signum of two infinities. On `F.fin 0` — which stands for both IEEE
zeros — the model returns `1`, the value of `(+0.0).signum()`; none of the
verified computations applies `signum` to a zero. -/
def F.signum : F → F
  | .nan => .nan
  | .negInf => .fin (-1)
  | .posInf => .fin 1
  | .fin q => if q < 0 then .fin (-1) else .fin 1

/-- Division by two (`x / 2.` in the source): exact on this domain, and
halving can never overflow. -/
def F.div2 : F → F
  | .nan => .nan
  | .negInf => .negInf
  | .posInf => .posInf
  | .fin q => .fin (q / 2)

/-- Model of `abs`. -/
def F.abs : F → F
  | .nan => .nan
  | .negInf => .posInf
  | .posInf => .posInf
  | .fin q => .fin |q|

/-- IEEE partial-order `<=` (false whenever an operand is NaN). -/
def F.leNum : F → F → Bool
  | .nan, _ => false
  | _, .nan => false
  | .negInf, _ => true
  | _, .negInf => false
  | _, .posInf => true
  | .posInf, _ => false
  | .fin a, .fin b => decide (a ≤ b)

/-- IEEE partial-order `<` (false whenever an operand is NaN). -/
def F.ltNum : F → F → Bool
  | .nan, _ => false
  | _, .nan => false
  | .posInf, _ => false
  | _, .negInf => false
  | .negInf, _ => true
  | _, .posInf => true
  | .fin a, .fin b => decide (a < b)

/-- Precision parameters distinguishing the two supported scalar types. -/
structure FloatSpec where
  maxFinite : ℚ
  minPositive : ℚ

/-- `f32` parameters: `MAX = (2^24 - 1) * 2^104`, `MIN_POSITIVE = 2^-126`. -/
def f32Spec : FloatSpec := ⟨(2 ^ 24 - 1) * 2 ^ 104, 1 / 2 ^ 126⟩

/-- `f64` parameters: `MAX = (2^53 - 1) * 2^971`, `MIN_POSITIVE = 2^-1022`. -/
def f64Spec : FloatSpec := ⟨(2 ^ 53 - 1) * 2 ^ 971, 1 / 2 ^ 1022⟩

/-- Coercion of an exact rational result back into the value domain:
magnitudes beyond `maxFinite` overflow to the corresponding infinity.
Results on the rounding knife edge just above `MAX` do not occur in any
computation verified here. -/
def FloatSpec.ofRat (s : FloatSpec) (q : ℚ) : F :=
  if q > s.maxFinite then .posInf
  else if q < -s.maxFinite then .negInf
  else .fin q

/-- IEEE addition on the value domain: NaN absorbs, opposite infinities
give NaN, an infinity absorbs finite values, finite sums may overflow. -/
def FloatSpec.add (s : FloatSpec) : F → F → F
  | .nan, _ => .nan
  | _, .nan => .nan
  | .posInf, .negInf => .nan
  | .negInf, .posInf => .nan
  | .posInf, _ => .posInf
  | _, .posInf => .posInf
  | .negInf, _ => .negInf
  | _, .negInf => .negInf
  | .fin a, .fin b => s.ofRat (a + b)

/-- Model of Rust `core`'s `f32::midpoint` / `f64::midpoint`, the overflow
safe midpoint the crate delegates to: with `LO = MIN_POSITIVE * 2` and
`HI = MAX / 2`, return `(a + b) / 2.` when both magnitudes are at most
`HI`; otherwise halve the large operand(s) first, leaving an operand of
magnitude below `LO` unhalved to avoid underflow. -/
def FloatSpec.stdMidpoint (s : FloatSpec) (a b : F) : F :=
  let lo := F.fin (s.minPositive * 2)
  let hi := F.fin (s.maxFinite / 2)
  let absA := a.abs
  let absB := b.abs
  if absA.leNum hi && absB.leNum hi then (s.add a b).div2
  else if absA.ltNum lo then s.add a b.div2
  else if absB.ltNum lo then s.add a.div2 b
  else s.add a.div2 b.div2

/-- Model of the crate's `Midpoint` implementations for `f32` and `f64`
(src/lib.rs lines 63-85): assert that the operands are not NaN (assertion
failure is modelled as `none`), return `0.0` for two infinities of
opposite sign, and delegate to the standard midpoint otherwise. -/
def FloatSpec.midpointImpl (s : FloatSpec) (a b : F) : Option F :=
  if a.isNaN || b.isNaN then none
  else if a.isInfinite && b.isInfinite && (a.signum != b.signum) then
    some (.fin 0)
  else some (s.stdMidpoint a b)

/-- Total wrapper around `FloatSpec.midpointImpl` used when instantiating
the generic engine: the assertion branch — unreachable from engine states,
whose heaps never hold NaN — is mapped to NaN. -/
def FloatSpec.midpointTotal (s : FloatSpec) (a b : F) : F :=
  (s.midpointImpl a b).getD F.nan

/-- Model of `FloatType::midpoint` for `f32`/`f64` (src/float_utils.rs
lines 46-53 and 71-78): assert that the operands are not NaN (assertion
failure modelled as `none`), compute the standard midpoint, and replace a
NaN result — which arises exactly for infinities of opposite sign — by
`default()`, i.e. `0.0`. -/
def FloatSpec.midpointFU (s : FloatSpec) (a b : F) : Option F :=
  if a.isNaN || b.isNaN then none
  else some (match s.stdMidpoint a b with
    | .nan => .fin 0
    | v => v)

/-- Sort key embedding `F` into a lexicographic pair. -/
def F.key : F → Lex (Nat × ℚ)
  | .negInf => toLex (1, 0)
  | .fin q => toLex (2, q)
  | .posInf => toLex (3, 0)
  | .nan => toLex (4, 0)

/-- Total order on `F` modelling the `Ord` instance of
`ordered_float::OrderedFloat` that the engine's heaps are built over:
`-inf` below all finite values, finite values by numeric value, `+inf`
above them, and NaN greatest of all. NaN never actually enters a heap,
since `push` rejects it first. -/
instance : LinearOrder F :=
  LinearOrder.lift' F.key (by
    intro a b h
    cases a <;> cases b <;> simp_all [F.key, toLex_inj])

/-- Comparison domain of the total-order wrapper of src/float_utils.rs:
the non-NaN floating-point values. The wrapper's `cmp` asserts that its
arguments are not NaN, and `FloatOrd` never holds NaN, so the domain
itself excludes NaN. Unlike `F`, this domain keeps the two IEEE zeros
apart, because `total_cmp` can tell them apart: `fin 0` stands for `+0.0`
and `negZero` for `-0.0`. -/
inductive FC : Type where
  | negInf : FC
  | negZero : FC
  | fin : ℚ → FC
  | posInf : FC
deriving DecidableEq

/-- IEEE numeric equality `==` on the non-NaN domain: the two zeros are
equal to each other, everything else only to itself. -/
def FC.numEq : FC → FC → Bool
  | .negInf, .negInf => true
  | .posInf, .posInf => true
  | .negZero, .negZero => true
  | .negZero, .fin q => decide (q = 0)
  | .fin q, .negZero => decide (q = 0)
  | .fin a, .fin b => decide (a = b)
  | _, _ => false

/-- Model of Rust's `total_cmp` on the non-NaN domain: the bit-pattern
total order, in which `-0.0` sits strictly between the negative values
and `+0.0`. -/
def FC.totalCmp : FC → FC → Ordering
  | .negInf, .negInf => .eq
  | .negInf, _ => .lt
  | _, .negInf => .gt
  | .posInf, .posInf => .eq
  | _, .posInf => .lt
  | .posInf, _ => .gt
  | .negZero, .negZero => .eq
  | .negZero, .fin q => if q < 0 then .gt else .lt
  | .fin q, .negZero => if q < 0 then .lt else .gt
  | .fin a, .fin b => if a < b then .lt else if b < a then .gt else .eq

/-- Model of `FloatType::cmp` for `f32`/`f64` (src/float_utils.rs lines
33-39 and 58-64), to which `Ord for FloatOrd` (lines 113-118) delegates:
numerically equal values — in particular the two zeros — compare `Equal`,
anything else falls through to `total_cmp`. The leading NaN assertion is
expressed by the domain `FC` itself, which has no NaN value. -/
def FC.cmp (a b : FC) : Ordering :=
  if a.numEq b then .eq else a.totalCmp b

/-- Numeric reading of a comparison-domain value in the extended
rationals, forgetting the sign of zero. -/
def FC.num : FC → WithBot (WithTop ℚ)
  | .negInf => ⊥
  | .negZero => ((0 : ℚ) : WithTop ℚ)
  | .fin q => ((q : WithTop ℚ) : WithBot (WithTop ℚ))
  | .posInf => ((⊤ : WithTop ℚ) : WithBot (WithTop ℚ))

/-- Wrapper struct `FloatOrd` (src/float_utils.rs line 87). -/
structure FloatOrd : Type where
  val : F
deriving DecidableEq

/-- Modelled from the spec: the fallible constructor `FloatOrd::new` is
missing from src/src/float_utils.rs — the tests (tests/float_test.rs,
tests/median_test.rs) call `FloatOrd::new(raw)` and expect a `Result`,
but the file only contains the asserting `From` conversion. Following
spec §4.1, `Construct(raw)` yields an `OrderedValue`, or fails with
`InvalidValue` if `raw` is NaN, with no other validation. -/
def FloatOrd.new (v : F) : Except InvalidValue FloatOrd :=
  if v.isNaN then Except.error InvalidValue.mk else Except.ok ⟨v⟩

/-- Model of `From<T> for FloatOrd` (src/float_utils.rs lines 89-95): the
conversion asserts that the value is not NaN (assertion failure modelled
as `none`) and wraps it. -/
def FloatOrd.fromRaw (v : F) : Option FloatOrd :=
  if v.isNaN then none else some ⟨v⟩

section EngineLemmas

variable {α : Type} [LinearOrder α]

theorem heapPushLo_sorted {v : α} {l : List α} (h : l.Sorted (· ≥ ·)) :
    (heapPushLo v l).Sorted (· ≥ ·) :=
  h.orderedInsert v l

theorem heapPushHi_sorted {v : α} {l : List α} (h : l.Sorted (· ≤ ·)) :
    (heapPushHi v l).Sorted (· ≤ ·) :=
  h.orderedInsert v l

theorem heapPushLo_perm (v : α) (l : List α) :
    (heapPushLo v l).Perm (v :: l) :=
  List.perm_orderedInsert _ v l

theorem heapPushHi_perm (v : α) (l : List α) :
    (heapPushHi v l).Perm (v :: l) :=
  List.perm_orderedInsert _ v l

theorem mem_heapPushLo {v x : α} {l : List α} :
    x ∈ heapPushLo v l ↔ x = v ∨ x ∈ l :=
  List.mem_orderedInsert _

theorem mem_heapPushHi {v x : α} {l : List α} :
    x ∈ heapPushHi v l ↔ x = v ∨ x ∈ l :=
  List.mem_orderedInsert _

theorem heapPushLo_length (v : α) (l : List α) :
    (heapPushLo v l).length = l.length + 1 :=
  List.orderedInsert_length _ l v

theorem heapPushHi_length (v : α) (l : List α) :
    (heapPushHi v l).length = l.length + 1 :=
  List.orderedInsert_length _ l v

/-- The placement step keeps the (relaxed) invariant and adds exactly the
new value to the stored multiset. -/
theorem placeVal_preInv {m : Median α} (v : α) (h : Inv m) :
    PreInv (m.placeVal v) ∧ (m.placeVal v).contents.Perm (v :: m.contents) := by
  rcases hL : m.heap_lo with _ | ⟨p, t⟩
  · -- heap_lo is empty, hence so is heap_hi; the value goes to heap_lo
    have hH : m.heap_hi = [] := by
      have h1 := h.size_hi
      rw [hL] at h1
      exact List.length_eq_zero.mp (Nat.le_zero.mp h1)
    refine ⟨⟨?_, ?_, ?_, ?_, ?_⟩, ?_⟩ <;>
      simp [Median.placeVal, Median.contents, hL, hH, heapPushLo, Median.new]
  · have hlolen := h.size_lo
    have hhilen := h.size_hi
    rw [hL, List.length_cons] at hlolen hhilen
    by_cases hv : v ≤ p
    · -- value goes to heap_lo
      have hplace : m.placeVal v = ⟨heapPushLo v (p :: t), m.heap_hi⟩ := by
        simp [Median.placeVal, hL, hv]
      have hmem : p ∈ m.heap_lo := by rw [hL]; exact List.mem_cons_self p t
      rw [hplace]
      refine ⟨⟨?_, ?_, ?_, ?_, ?_⟩, ?_⟩
      · exact heapPushLo_sorted (hL ▸ h.sorted_lo)
      · exact h.sorted_hi
      · intro x hx y hy
        rcases mem_heapPushLo.mp hx with rfl | hx'
        · exact le_trans hv (h.part p hmem y hy)
        · exact h.part x (hL ▸ hx') y hy
      · simp only [heapPushLo_length, List.length_cons]
        omega
      · simp only [heapPushLo_length, List.length_cons]
        omega
      · simp only [Median.contents, hL]
        exact ((heapPushLo_perm v (p :: t)).append_right _)
    · -- value goes to heap_hi
      have hplace : m.placeVal v = ⟨p :: t, heapPushHi v m.heap_hi⟩ := by
        simp [Median.placeVal, hL, hv]
      have hple : ∀ x ∈ m.heap_lo, x ≤ p := by
        intro x hx
        rw [hL] at hx
        rcases List.mem_cons.mp hx with rfl | hx'
        · exact le_refl x
        · exact List.rel_of_sorted_cons (hL ▸ h.sorted_lo) x hx'
      rw [hplace]
      refine ⟨⟨?_, ?_, ?_, ?_, ?_⟩, ?_⟩
      · exact hL ▸ h.sorted_lo
      · exact heapPushHi_sorted h.sorted_hi
      · intro x hx y hy
        rcases mem_heapPushHi.mp hy with rfl | hy'
        · exact le_trans (hple x (hL ▸ hx)) (le_of_lt (not_le.mp hv))
        · exact h.part x (hL ▸ hx) y hy'
      · simp only [heapPushHi_length, List.length_cons]
        omega
      · simp only [heapPushHi_length, List.length_cons]
        omega
      · simp only [Median.contents, hL]
        refine ((heapPushHi_perm v m.heap_hi).append_left (p :: t)).trans ?_
        exact List.perm_middle

/-- The rebalancing step restores the exact invariant from the relaxed one
and does not change the stored multiset. -/
theorem rebalance_inv {m : Median α} (h : PreInv m) :
    Inv m.rebalance ∧ m.rebalance.contents.Perm m.contents := by
  unfold Median.rebalance
  split_ifs with h1 h2
  · -- heap_lo is larger by two: move its top over to heap_hi
    rcases hL : m.heap_lo with _ | ⟨x, rest⟩
    · rw [hL] at h1; simp at h1
    · have hlen : rest.length + 1 = m.heap_hi.length + 2 := by
        have := h.size_lo
        rw [hL] at h1 this
        simp only [List.length_cons] at h1 this
        omega
      have hxmem : x ∈ m.heap_lo := by rw [hL]; exact List.mem_cons_self x rest
      have hsl : (x :: rest).Sorted (· ≥ ·) := hL ▸ h.sorted_lo
      have hxrest : ∀ a ∈ rest, a ≤ x :=
        fun a ha => List.rel_of_sorted_cons hsl a ha
      refine ⟨⟨?_, ?_, ?_, ?_, ?_⟩, ?_⟩
      · exact (hL ▸ h.sorted_lo).of_cons
      · exact heapPushHi_sorted h.sorted_hi
      · intro a ha y hy
        rcases mem_heapPushHi.mp hy with rfl | hy'
        · exact hxrest a ha
        · exact h.part a (hL ▸ List.mem_cons_of_mem x ha) y hy'
      · simp only [heapPushHi_length]
        omega
      · simp only [heapPushHi_length]
        omega
      · simp only [Median.contents]
        refine ((heapPushHi_perm x m.heap_hi).append_left rest).trans ?_
        refine List.perm_middle.trans ?_
        rw [hL]
        exact (List.Perm.refl _)
  · -- heap_hi is strictly larger: move its top over to heap_lo
    rcases hH : m.heap_hi with _ | ⟨x, rest⟩
    · rw [hH] at h2; simp at h2
    · have hlen : rest.length = m.heap_lo.length := by
        have := h.size_hi
        rw [hH] at h2 this
        simp only [List.length_cons] at h2 this
        omega
      have hsh : (x :: rest).Sorted (· ≤ ·) := hH ▸ h.sorted_hi
      have hxrest : ∀ y ∈ rest, x ≤ y :=
        fun y hy => List.rel_of_sorted_cons hsh y hy
      refine ⟨⟨?_, ?_, ?_, ?_, ?_⟩, ?_⟩
      · exact heapPushLo_sorted h.sorted_lo
      · exact (hH ▸ h.sorted_hi).of_cons
      · intro a ha y hy
        rcases mem_heapPushLo.mp ha with rfl | ha'
        · exact hxrest y hy
        · exact h.part a ha' y (hH ▸ List.mem_cons_of_mem x hy)
      · simp only [heapPushLo_length]
        omega
      · simp only [heapPushLo_length]
        omega
      · simp only [Median.contents]
        refine ((heapPushLo_perm x m.heap_lo).append_right rest).trans ?_
        rw [hH]
        exact List.perm_middle.symm
  · -- sizes already in range
    push_neg at h1 h2
    exact ⟨⟨h.sorted_lo, h.sorted_hi, h.part, by omega, by omega⟩, List.Perm.refl _⟩

/-- One successful push keeps the invariant and prepends the new value to
the stored multiset (up to permutation). -/
theorem pushVal_inv {m : Median α} (v : α) (h : Inv m) :
    Inv (m.pushVal v) ∧ (m.pushVal v).contents.Perm (v :: m.contents) := by
  obtain ⟨h1, p1⟩ := placeVal_preInv v h
  obtain ⟨h2, p2⟩ := rebalance_inv h1
  exact ⟨h2, p2.trans p1⟩

theorem new_inv : Inv (Median.new : Median α) := by
  refine ⟨?_, ?_, ?_, ?_, ?_⟩ <;> simp [Median.new]

theorem push_inv (isNaN : α → Bool) {m : Median α} (v : α) (h : Inv m) :
    Inv (m.push isNaN v).2 := by
  unfold Median.push
  split_ifs
  · exact h
  · exact (pushVal_inv v h).1

/-- Every reachable state satisfies the engine invariant. -/
theorem reachable_inv {isNaN : α → Bool} {m : Median α}
    (h : Reachable isNaN m) : Inv m := by
  induction h with
  | new => exact new_inv
  | push m v _ ih => exact push_inv isNaN v ih
  | clear m _ => exact new_inv

/-- A successful run of pushes from an invariant state ends in an invariant
state holding exactly the pushed values on top of the old contents. -/
theorem pushAll_ok (isNaN : α → Bool) {vs : List α} {m₀ m : Median α}
    (h0 : Inv m₀) (h : Median.pushAll isNaN m₀ vs = Except.ok m) :
    Inv m ∧ m.contents.Perm (vs ++ m₀.contents) := by
  induction vs generalizing m₀ with
  | nil =>
    simp only [Median.pushAll] at h
    cases h
    exact ⟨h0, List.Perm.refl _⟩
  | cons v vs ih =>
    rw [Median.pushAll] at h
    by_cases hn : isNaN v
    · simp [Median.push, hn] at h
    · simp only [Median.push, hn, Bool.false_eq_true, if_false] at h
      obtain ⟨hinv, hperm⟩ := pushVal_inv v h0
      obtain ⟨h1, p1⟩ := ih hinv h
      refine ⟨h1, p1.trans ?_⟩
      refine (hperm.append_left vs).trans ?_
      exact List.perm_middle

/-- With the invariant in force, sorting the stored values yields exactly
the reversed lower heap followed by the upper heap. -/
theorem sorted_contents {m : Median α} (h : Inv m) :
    List.insertionSort (· ≤ ·) m.contents = m.heap_lo.reverse ++ m.heap_hi := by
  have hperm : (List.insertionSort (· ≤ ·) m.contents).Perm
      (m.heap_lo.reverse ++ m.heap_hi) :=
    (List.perm_insertionSort _ _).trans
      ((m.heap_lo.reverse_perm.symm).append_right _)
  have hs2 : (m.heap_lo.reverse ++ m.heap_hi).Sorted (· ≤ ·) := by
    refine List.pairwise_append.mpr ⟨?_, h.sorted_hi, ?_⟩
    · exact List.pairwise_reverse.mpr h.sorted_lo
    · intro x hx y hy
      exact h.part x (List.mem_reverse.mp hx) y hy
  exact List.eq_of_perm_of_sorted hperm (List.sorted_insertionSort _ _) hs2

/-- Under the invariant, `get` agrees with the sort-based reference median
of the stored values. -/
theorem get_eq_medianRef (mid : α → α → α) {m : Median α} (h : Inv m) :
    m.get mid = medianRef mid m.contents := by
  rcases hL : m.heap_lo with _ | ⟨a, t⟩
  · have hH : m.heap_hi = [] := by
      have h1 := h.size_hi
      rw [hL] at h1
      exact List.length_eq_zero.mp (Nat.le_zero.mp h1)
    simp [Median.get, medianRef, Median.contents, hL, hH]
  · have hs := sorted_contents h
    have hclen : m.contents.length = m.heap_lo.length + m.heap_hi.length := by
      simp [Median.contents]
    have hrevlen : m.heap_lo.reverse.length = m.heap_lo.length :=
      m.heap_lo.length_reverse
    have hlopos : 0 < m.heap_lo.length := by rw [hL]; simp
    have hrev0 : m.heap_lo.reverse[m.heap_lo.length - 1]? = some a := by
      rw [List.getElem?_reverse (by omega)]
      have h0 : m.heap_lo.length - 1 - (m.heap_lo.length - 1) = 0 := by omega
      rw [h0, hL]
      simp
    by_cases he : m.heap_lo.length = m.heap_hi.length
    · -- even count: midpoint of the two heap tops
      rcases hH : m.heap_hi with _ | ⟨b, u⟩
      · rw [hL, hH] at he; simp at he
      · have hmod : ¬m.contents.length % 2 = 1 := by omega
        have hdiv : m.contents.length / 2 = m.heap_lo.length := by omega
        have hdiv1 : m.contents.length / 2 - 1 = m.heap_lo.length - 1 := by omega
        have hb0 : m.heap_hi[0]? = some b := by rw [hH]; simp
        have hidx1 : (List.insertionSort (· ≤ ·) m.contents)[m.contents.length / 2 - 1]?
            = some a := by
          rw [hs, hdiv1, List.getElem?_append, if_pos (by rw [hrevlen]; omega)]
          exact hrev0
        have hidx2 : (List.insertionSort (· ≤ ·) m.contents)[m.contents.length / 2]?
            = some b := by
          rw [hs, hdiv, List.getElem?_append, if_neg (by rw [hrevlen]; omega)]
          have h0 : m.heap_lo.length - m.heap_lo.reverse.length = 0 := by omega
          rw [h0, hb0]
        have hget : m.get mid = some (mid a b) := by
          simp only [Median.get, hL, List.isEmpty_cons, Bool.false_eq_true, if_false]
          rw [if_pos (by rw [← hL]; exact he)]
          simp [hH]
        rw [hget]
        simp only [medianRef, if_neg hmod, hidx1, hidx2]
    · -- odd count: top of the lower heap
      have hsz : m.heap_lo.length = m.heap_hi.length + 1 := by
        have h1 := h.size_lo
        have h2 := h.size_hi
        omega
      have hmod : m.contents.length % 2 = 1 := by omega
      have hdiv : m.contents.length / 2 = m.heap_lo.length - 1 := by omega
      have hidx : (List.insertionSort (· ≤ ·) m.contents)[m.contents.length / 2]?
          = some a := by
        rw [hs, hdiv, List.getElem?_append, if_pos (by rw [hrevlen]; omega)]
        exact hrev0
      have hget : m.get mid = some a := by
        simp only [Median.get, hL, List.isEmpty_cons, Bool.false_eq_true, if_false]
        rw [if_neg (by rw [← hL]; exact he)]
        simp [hL]
      rw [hget]
      simp only [medianRef, if_pos hmod, hidx]

/-- The reference median only depends on the multiset of inputs. -/
theorem medianRef_perm (mid : α → α → α) {l₁ l₂ : List α} (h : l₁.Perm l₂) :
    medianRef mid l₁ = medianRef mid l₂ := by
  have hlen := h.length_eq
  have hsort : List.insertionSort (· ≤ ·) l₁ = List.insertionSort (· ≤ ·) l₂ :=
    List.eq_of_perm_of_sorted
      ((List.perm_insertionSort _ _).trans
        (h.trans (List.perm_insertionSort _ _).symm))
      (List.sorted_insertionSort _ _) (List.sorted_insertionSort _ _)
  simp only [medianRef, hlen, hsort]

/-- Pushing values that are all non-NaN always succeeds, and the final
state is the plain fold of the successful-push step. -/
theorem pushAll_of_not_nan (isNaN : α → Bool) (vs : List α) (m₀ : Median α)
    (h : ∀ v ∈ vs, isNaN v = false) :
    Median.pushAll isNaN m₀ vs = Except.ok (vs.foldl Median.pushVal m₀) := by
  induction vs generalizing m₀ with
  | nil => rfl
  | cons v vs ih =>
    rw [Median.pushAll]
    have hv : isNaN v = false := h v (List.mem_cons_self v vs)
    simp only [Median.push, hv, Bool.false_eq_true, if_false]
    rw [ih (m₀.pushVal v) (fun w hw => h w (List.mem_cons_of_mem v hw))]
    rfl

omit [LinearOrder α] in
/-- Shape of `get` when the two heaps have equal size and tops `a`, `b`. -/
theorem get_of_eq_len (mid : α → α → α) {m : Median α} {a b : α}
    (ha : m.heap_lo.head? = some a) (hb : m.heap_hi.head? = some b)
    (he : m.heap_lo.length = m.heap_hi.length) :
    m.get mid = some (mid a b) := by
  have hne : m.heap_lo.isEmpty = false := by
    rcases hL : m.heap_lo with _ | _
    · rw [hL] at ha; simp at ha
    · simp [hL]
  simp [Median.get, hne, he, ha, hb]

omit [LinearOrder α] in
/-- Shape of `get` when the heap sizes differ (lower holds one more). -/
theorem get_of_ne_len (mid : α → α → α) {m : Median α}
    (hne : m.heap_lo ≠ [])
    (he : m.heap_lo.length ≠ m.heap_hi.length) :
    m.get mid = m.heap_lo.head? := by
  have h1 : m.heap_lo.isEmpty = false := by
    simp [List.isEmpty_iff, hne]
  simp [Median.get, h1, he]

end EngineLemmas

section Claims

variable {α : Type}

/-- C1: for every finite sequence of non-NaN floating-point values pushed
one at a time into a fresh engine, after each push `get()` returns exactly
the reference median of all values pushed so far: the middle element of
the sorted sequence when the count is odd, and `Midpoint` of the two
middle elements when the count is even. (A run of `pushAll` from
`Median.new` succeeds exactly when every pushed value is non-NaN, and the
arbitrary list `vs` covers every prefix of a longer stream, hence the
state after each push.) -/
theorem c1_get_matches_reference [LinearOrder α] (isNaN : α → Bool)
    (mid : α → α → α) (vs : List α) (h : ∀ v ∈ vs, isNaN v = false) :
    (Median.pushAll isNaN Median.new vs).map (Median.get mid)
      = Except.ok (medianRef mid vs) := by
  have hok := pushAll_of_not_nan isNaN vs Median.new h
  obtain ⟨hinv, hperm⟩ := pushAll_ok isNaN new_inv hok
  rw [hok]
  simp only [Except.map]
  rw [get_eq_medianRef mid hinv]
  refine congrArg Except.ok (medianRef_perm mid ?_)
  simpa [Median.new, Median.contents] using hperm

/-- Witness for C1 at a concrete run over `ℕ`: pushing `[3, 1, 2]` into a
fresh engine succeeds and yields the reference median `2` of `[3, 1, 2]`. -/
theorem c1_witness :
    (Median.pushAll (fun _ : ℕ => false) Median.new [3, 1, 2]).map
      (Median.get (fun a b => (a + b) / 2)) = Except.ok (some 2) :=
  (c1_get_matches_reference (fun _ => false) (fun a b => (a + b) / 2)
      [3, 1, 2] (by decide)).trans (by decide)

/-- C2: after every sequence of successful pushes — any insertion order —
the engine satisfies the size-balance invariant
(`len(heap_lo) = len(heap_hi)` or `len(heap_lo) = len(heap_hi) + 1`) and
the partition invariant (every element of `heap_lo` is `≤` every element
of `heap_hi`). The arbitrary `vs` covers every prefix, hence the state
after each push. -/
theorem c2_invariants_after_push [LinearOrder α] (isNaN : α → Bool)
    (vs : List α) (m : Median α)
    (h : Median.pushAll isNaN Median.new vs = Except.ok m) :
    (m.heap_lo.length = m.heap_hi.length ∨
      m.heap_lo.length = m.heap_hi.length + 1) ∧
    ∀ x ∈ m.heap_lo, ∀ y ∈ m.heap_hi, x ≤ y := by
  obtain ⟨hinv, -⟩ := pushAll_ok isNaN new_inv h
  have h1 := hinv.size_lo
  have h2 := hinv.size_hi
  exact ⟨by omega, hinv.part⟩

/-- Witness for C2 on the reverse-sorted run `[3, 1, 2]` over `ℕ`. -/
theorem c2_witness :
    ((⟨[2, 1], [3]⟩ : Median ℕ).heap_lo.length
        = (⟨[2, 1], [3]⟩ : Median ℕ).heap_hi.length ∨
      (⟨[2, 1], [3]⟩ : Median ℕ).heap_lo.length
        = (⟨[2, 1], [3]⟩ : Median ℕ).heap_hi.length + 1) ∧
    ∀ x ∈ (⟨[2, 1], [3]⟩ : Median ℕ).heap_lo,
      ∀ y ∈ (⟨[2, 1], [3]⟩ : Median ℕ).heap_hi, x ≤ y :=
  c2_invariants_after_push (fun _ => false) [3, 1, 2] ⟨[2, 1], [3]⟩ (by decide)

/-- C4: in every reachable engine state, `get()` is absent iff no values
are stored (iff `len() = 0`, iff `is_empty()`); when the heaps have equal
size it returns `Midpoint` of the two tops, and when the lower heap holds
exactly one more element it returns the top of the lower heap. `get` is a
pure function of the state, so it performs no structural change. -/
theorem c4_get_characterization [LinearOrder α] (isNaN : α → Bool)
    (mid : α → α → α) (m : Median α) (h : Reachable isNaN m) :
    (m.get mid = none ↔ m.len = 0) ∧
    (m.len = 0 ↔ m.is_empty = true) ∧
    (∀ a b, m.heap_lo.head? = some a → m.heap_hi.head? = some b →
      m.heap_lo.length = m.heap_hi.length → m.get mid = some (mid a b)) ∧
    (m.heap_lo.length = m.heap_hi.length + 1 →
      ∃ a, m.heap_lo.head? = some a ∧ m.get mid = some a) := by
  have hinv := reachable_inv h
  have hms : 0 < USIZE_MAX := by norm_num [USIZE_MAX]
  by_cases hL : m.heap_lo = []
  · have hH : m.heap_hi = [] := by
      have h1 := hinv.size_hi
      rw [hL] at h1
      exact List.length_eq_zero.mp (Nat.le_zero.mp h1)
    refine ⟨?_, ?_, ?_, ?_⟩
    · simp [Median.get, Median.len, usizeSatAdd, hL, hH]
    · simp [Median.len, Median.is_empty, usizeSatAdd, hL, hH]
    · intro x y hx _hy _he
      rw [hL] at hx
      simp at hx
    · intro hlen
      rw [hL, hH] at hlen
      simp at hlen
  · obtain ⟨a, t, hLc⟩ := List.exists_cons_of_ne_nil hL
    have hlen0 : m.len ≠ 0 := by
      simp only [Median.len, usizeSatAdd, hLc, List.length_cons]
      omega
    have hgetn : m.get mid ≠ none := by
      by_cases he2 : m.heap_lo.length = m.heap_hi.length
      · have hHne : m.heap_hi ≠ [] := by
          intro hH
          rw [hLc, hH] at he2
          simp at he2
        obtain ⟨b, u, hHc⟩ := List.exists_cons_of_ne_nil hHne
        rw [get_of_eq_len mid (by rw [hLc]; rfl) (by rw [hHc]; rfl) he2]
        simp
      · rw [get_of_ne_len mid hL he2, hLc]
        simp
    have hemp : m.is_empty = false := by simp [Median.is_empty, hLc]
    refine ⟨iff_of_false hgetn hlen0, ?_, ?_, ?_⟩
    · rw [hemp]
      exact iff_of_false hlen0 (by simp)
    · intro x y hx hy he2
      exact get_of_eq_len mid hx hy he2
    · intro hlen
      refine ⟨a, by rw [hLc]; rfl, ?_⟩
      rw [get_of_ne_len mid hL (by omega), hLc]
      rfl

/-- Witness for C4 at the reachable state after pushing `1` then `2` over
`ℕ`: equal-sized heaps with tops `1` and `2`, so `get` is their midpoint. -/
theorem c4_witness :
    ((Median.push (fun _ : ℕ => false)
        (Median.push (fun _ : ℕ => false) Median.new 1).2 2).2.get
      (fun a b => (a + b) / 2)) = some ((1 + 2) / 2) :=
  (c4_get_characterization (fun _ => false) (fun a b => (a + b) / 2) _
      (Reachable.push _ 2 (Reachable.push _ 1 Reachable.new))).2.2.1 1 2
    (by decide) (by decide) (by decide)

/-- C9: `clear()` empties both collections, so afterwards `get()` is
absent, `len()` is `0`, `is_empty()` holds, and — since the cleared state
is literally the state `new()` produces — the engine behaves identically
to a freshly constructed one under every subsequent operation. -/
theorem c9_clear_resets (mid : α → α → α) (m : Median α) :
    m.clear = (Median.new : Median α) ∧
    m.clear.get mid = none ∧ m.clear.len = 0 ∧ m.clear.is_empty = true := by
  refine ⟨rfl, rfl, ?_, rfl⟩
  simp [Median.clear, Median.len, usizeSatAdd]

/-- C10: in every reachable state whose total element count is below
`usize::MAX`, the internal panicking branches are dead: the
`checked_add(1).unwrap()` in `push` succeeds, and the `peek().unwrap()`
calls in `get` all succeed — the top of `heap_lo` exists whenever
`heap_lo` is non-empty, and the top of `heap_hi` exists in the equal-size
branch because equal sizes with a non-empty `heap_lo` force `heap_hi` to
be non-empty as well. -/
theorem c10_no_panics [LinearOrder α] (isNaN : α → Bool) (m : Median α)
    (_hr : Reachable isNaN m) (hcount : m.len < USIZE_MAX) :
    usizeCheckedAdd m.heap_hi.length 1 = some (m.heap_hi.length + 1) ∧
    (m.heap_lo ≠ [] → m.heap_lo.head?.isSome = true ∧
      (m.heap_lo.length = m.heap_hi.length → m.heap_hi.head?.isSome = true)) := by
  have hlen : m.len = min (m.heap_lo.length + m.heap_hi.length) USIZE_MAX := rfl
  rw [hlen] at hcount
  constructor
  · unfold usizeCheckedAdd
    rw [if_pos (by omega)]
  · intro hne
    constructor
    · rcases hL : m.heap_lo with _ | _
      · exact absurd hL hne
      · simp [hL]
    · intro heq
      rcases hH : m.heap_hi with _ | _
      · rw [hH] at heq
        simp only [List.length_nil] at heq
        exact absurd (List.length_eq_zero.mp heq) hne
      · simp [hH]

/-- Witness for C10 at the reachable two-element state over `ℕ`. -/
theorem c10_witness :
    usizeCheckedAdd ((Median.push (fun _ : ℕ => false)
        (Median.push (fun _ : ℕ => false) Median.new 1).2 2).2.heap_hi.length) 1
      = some ((Median.push (fun _ : ℕ => false)
        (Median.push (fun _ : ℕ => false) Median.new 1).2 2).2.heap_hi.length + 1) :=
  (c10_no_panics (fun _ => false) _
      (Reachable.push _ 2 (Reachable.push _ 1 Reachable.new)) (by decide)).1

/-- C3: for every engine state and every NaN input, `push(NaN)` returns
the `InvalidValue` error and leaves the engine state — hence `len()`, the
`get()` result, and the heap contents — completely unchanged; and `push`
returns an error only for NaN inputs: every finite magnitude and both
infinities succeed. -/
theorem c3_push_nan_rejected (m : Median F) (v : F) :
    (v.isNaN = true → m.push F.isNaN v = (Except.error InvalidValue.mk, m)) ∧
    (v.isNaN = false → (m.push F.isNaN v).1 = Except.ok ()) ∧
    m.push F.isNaN F.nan = (Except.error InvalidValue.mk, m) ∧
    (m.push F.isNaN F.nan).2.len = m.len ∧
    (m.push F.isNaN F.nan).2.get f64Spec.midpointTotal
      = m.get f64Spec.midpointTotal ∧
    (∀ q : ℚ, (m.push F.isNaN (F.fin q)).1 = Except.ok ()) ∧
    (m.push F.isNaN F.posInf).1 = Except.ok () ∧
    (m.push F.isNaN F.negInf).1 = Except.ok () := by
  refine ⟨?_, ?_, ?_, ?_, ?_, ?_, ?_, ?_⟩
  · intro hv
    simp [Median.push, hv]
  · intro hv
    simp [Median.push, hv]
  · simp [Median.push, F.isNaN]
  · simp [Median.push, F.isNaN]
  · simp [Median.push, F.isNaN]
  · intro q
    simp [Median.push, F.isNaN]
  · simp [Median.push, F.isNaN]
  · simp [Median.push, F.isNaN]

/-- Witness for C3: a fresh engine rejects NaN unchanged and accepts a
zero and an infinity. -/
theorem c3_witness :
    Median.push F.isNaN Median.new F.nan
        = (Except.error InvalidValue.mk, Median.new) ∧
    (Median.push F.isNaN Median.new (F.fin 0)).1 = Except.ok () ∧
    (Median.push F.isNaN Median.new F.posInf).1 = Except.ok () :=
  ⟨(c3_push_nan_rejected Median.new F.nan).1 rfl,
   (c3_push_nan_rejected Median.new (F.fin 0)).2.1 rfl,
   (c3_push_nan_rejected Median.new F.posInf).2.1 rfl⟩

/-- C5: for both precisions and for both midpoint implementations in the
repository (the `Midpoint` trait of src/lib.rs and `FloatType::midpoint`
of src/float_utils.rs), the midpoint of two infinities of opposite sign
is `0`, and the midpoint of two infinities of the same sign is that same
infinity. -/
theorem c5_midpoint_infinities :
    (f64Spec.midpointImpl F.posInf F.posInf = some F.posInf ∧
      f64Spec.midpointImpl F.negInf F.negInf = some F.negInf ∧
      f64Spec.midpointImpl F.posInf F.negInf = some (F.fin 0) ∧
      f64Spec.midpointImpl F.negInf F.posInf = some (F.fin 0)) ∧
    (f32Spec.midpointImpl F.posInf F.posInf = some F.posInf ∧
      f32Spec.midpointImpl F.negInf F.negInf = some F.negInf ∧
      f32Spec.midpointImpl F.posInf F.negInf = some (F.fin 0) ∧
      f32Spec.midpointImpl F.negInf F.posInf = some (F.fin 0)) ∧
    (f64Spec.midpointFU F.posInf F.posInf = some F.posInf ∧
      f64Spec.midpointFU F.negInf F.negInf = some F.negInf ∧
      f64Spec.midpointFU F.posInf F.negInf = some (F.fin 0) ∧
      f64Spec.midpointFU F.negInf F.posInf = some (F.fin 0)) ∧
    (f32Spec.midpointFU F.posInf F.posInf = some F.posInf ∧
      f32Spec.midpointFU F.negInf F.negInf = some F.negInf ∧
      f32Spec.midpointFU F.posInf F.negInf = some (F.fin 0) ∧
      f32Spec.midpointFU F.negInf F.posInf = some (F.fin 0)) := by
  refine ⟨⟨?_, ?_, ?_, ?_⟩, ⟨?_, ?_, ?_, ?_⟩, ⟨?_, ?_, ?_, ?_⟩,
    ⟨?_, ?_, ?_, ?_⟩⟩ <;> rfl

/-- C8: constructing an `OrderedValue` from a raw floating-point value is
fallible — it fails with `InvalidValue` exactly when the raw value is NaN
and succeeds for every other input (both infinities and every finite
magnitude) — so no `FloatOrd` produced by the constructor ever holds NaN.
The asserting `From` conversion that is present in src/float_utils.rs
enforces the same no-NaN invariant. -/
theorem c8_construct_rejects_nan :
    (∀ v : F, v.isNaN = true → FloatOrd.new v = Except.error InvalidValue.mk) ∧
    (∀ v : F, v.isNaN = false → FloatOrd.new v = Except.ok ⟨v⟩) ∧
    (∀ v : F, ∀ o : FloatOrd, FloatOrd.new v = Except.ok o →
      o.val.isNaN = false) ∧
    (∀ q : ℚ, FloatOrd.new (F.fin q) = Except.ok ⟨F.fin q⟩) ∧
    FloatOrd.new F.posInf = Except.ok ⟨F.posInf⟩ ∧
    FloatOrd.new F.negInf = Except.ok ⟨F.negInf⟩ ∧
    FloatOrd.new F.nan = Except.error InvalidValue.mk ∧
    (∀ v : F, ∀ o : FloatOrd, FloatOrd.fromRaw v = some o →
      o.val.isNaN = false) := by
  refine ⟨?_, ?_, ?_, ?_, rfl, rfl, rfl, ?_⟩
  · intro v hv
    simp [FloatOrd.new, hv]
  · intro v hv
    simp [FloatOrd.new, hv]
  · intro v o hv
    by_cases hn : v.isNaN = true
    · simp [FloatOrd.new, hn] at hv
    · simp [FloatOrd.new, hn] at hv
      rw [← hv]
      simpa using hn
  · intro q
    rfl
  · intro v o hv
    by_cases hn : v.isNaN = true
    · simp [FloatOrd.fromRaw, hn] at hv
    · simp [FloatOrd.fromRaw, hn] at hv
      rw [← hv]
      simpa using hn

/-- Witness for C8: NaN is rejected, an infinity and a zero are accepted
and hold non-NaN values. -/
theorem c8_witness :
    FloatOrd.new F.nan = Except.error InvalidValue.mk ∧
    FloatOrd.new (F.fin 0) = Except.ok ⟨F.fin 0⟩ ∧
    (FloatOrd.mk F.posInf).val.isNaN = false :=
  ⟨c8_construct_rejects_nan.1 F.nan rfl,
   c8_construct_rejects_nan.2.1 (F.fin 0) rfl,
   c8_construct_rejects_nan.2.2.1 F.posInf ⟨F.posInf⟩ rfl⟩

/-- The wrapper comparison returns `lt` exactly when the numeric readings
compare strictly. -/
theorem cmp_lt_iff (a b : FC) : a.cmp b = Ordering.lt ↔ a.num < b.num := by
  cases a <;> cases b <;>
    simp [FC.cmp, FC.numEq, FC.totalCmp, FC.num, WithBot.coe_lt_coe,
      WithTop.coe_lt_coe, WithBot.bot_lt_coe, WithTop.coe_lt_top,
      WithBot.coe_inj, WithTop.coe_eq_coe, not_top_lt, not_lt_bot]
  · exact WithBot.bot_lt_coe _
  · rename_i q
    exact ⟨fun h => lt_of_le_of_ne h.2 (Ne.symm h.1), fun h => ⟨h.ne', h.le⟩⟩
  · exact WithBot.coe_lt_coe.mpr (WithTop.coe_lt_top _)
  · rename_i q
    exact fun h => h.ne
  · rename_i q r
    exact fun h => h.ne
  · rename_i q
    exact WithBot.coe_lt_coe.mpr (WithTop.coe_lt_top _)

/-- The wrapper comparison returns `eq` exactly when the numeric readings
agree — in particular on the two zeros. -/
theorem cmp_eq_iff (a b : FC) : a.cmp b = Ordering.eq ↔ a.num = b.num := by
  cases a <;> cases b <;>
    simp [FC.cmp, FC.numEq, FC.totalCmp, FC.num, WithBot.coe_lt_coe,
      WithTop.coe_lt_coe, WithBot.bot_lt_coe, WithTop.coe_lt_top,
      WithBot.coe_inj, WithTop.coe_eq_coe, not_top_lt, not_lt_bot]
  · exact fun h => WithTop.coe_ne_top (WithBot.coe_inj.mp h)
  · rename_i q r
    constructor
    · intro h
      by_cases hab : q = r
      · exact hab
      · exact le_antisymm (h hab).2 (h hab).1
    · intro heq hne
      exact absurd heq hne
  · exact fun h => WithTop.coe_ne_top (WithBot.coe_inj.mp h.symm)

/-- The wrapper comparison returns `gt` exactly when the numeric readings
compare strictly the other way. -/
theorem cmp_gt_iff (a b : FC) : a.cmp b = Ordering.gt ↔ b.num < a.num := by
  cases a <;> cases b <;>
    simp [FC.cmp, FC.numEq, FC.totalCmp, FC.num, WithBot.coe_lt_coe,
      WithTop.coe_lt_coe, WithBot.bot_lt_coe, WithTop.coe_lt_top,
      WithBot.coe_inj, WithTop.coe_eq_coe, not_top_lt, not_lt_bot]
  · exact WithBot.bot_lt_coe _
  · rename_i q
    exact fun h => h.ne
  · rename_i q
    exact ⟨fun h => lt_of_le_of_ne h.2 (Ne.symm h.1), fun h => ⟨h.ne', h.le⟩⟩
  · rename_i q r
    exact ⟨fun h => h.2.2, fun h => ⟨h.ne', h.le, h⟩⟩
  · exact WithBot.coe_lt_coe.mpr (WithTop.coe_lt_top _)
  · rename_i q
    exact WithBot.coe_lt_coe.mpr (WithTop.coe_lt_top _)

/-- C7: the wrapper's `Compare` is a total order on the non-NaN
floating-point values: for all non-NaN `a` and `b` exactly one of
`a < b`, `a == b`, `a > b` holds (consistently under swapping the
arguments), the order is transitive, `-inf` is below every finite value
and `+inf` above every finite value, and `-0.0` and `+0.0` compare equal
— standard numeric equality, not the bit-pattern order of `total_cmp`. -/
theorem c7_cmp_total_order :
    (∀ a b : FC,
      (a.cmp b = Ordering.lt ∨ a.cmp b = Ordering.eq ∨
        a.cmp b = Ordering.gt) ∧
      ¬(a.cmp b = Ordering.lt ∧ a.cmp b = Ordering.eq) ∧
      ¬(a.cmp b = Ordering.lt ∧ a.cmp b = Ordering.gt) ∧
      ¬(a.cmp b = Ordering.eq ∧ a.cmp b = Ordering.gt) ∧
      (a.cmp b = Ordering.lt ↔ b.cmp a = Ordering.gt) ∧
      (a.cmp b = Ordering.eq ↔ b.cmp a = Ordering.eq)) ∧
    (∀ a b c : FC, a.cmp b = Ordering.lt → b.cmp c = Ordering.lt →
      a.cmp c = Ordering.lt) ∧
    (∀ q : ℚ, FC.negInf.cmp (FC.fin q) = Ordering.lt ∧
      (FC.fin q).cmp FC.posInf = Ordering.lt) ∧
    (FC.negInf.cmp FC.negZero = Ordering.lt ∧
      FC.negZero.cmp FC.posInf = Ordering.lt) ∧
    (FC.negZero.cmp (FC.fin 0) = Ordering.eq ∧
      (FC.fin 0).cmp FC.negZero = Ordering.eq) := by
  refine ⟨?_, ?_, ?_, ⟨?_, ?_⟩, ⟨?_, ?_⟩⟩
  · intro a b
    refine ⟨?_, ?_, ?_, ?_, ?_, ?_⟩
    · cases h : a.cmp b
      · exact Or.inl rfl
      · exact Or.inr (Or.inl rfl)
      · exact Or.inr (Or.inr rfl)
    · rintro ⟨h1, h2⟩
      rw [h1] at h2
      cases h2
    · rintro ⟨h1, h2⟩
      rw [h1] at h2
      cases h2
    · rintro ⟨h1, h2⟩
      rw [h1] at h2
      cases h2
    · rw [cmp_lt_iff, cmp_gt_iff]
    · rw [cmp_eq_iff, cmp_eq_iff]
      exact eq_comm
  · intro a b c h1 h2
    rw [cmp_lt_iff] at h1 h2 ⊢
    exact lt_trans h1 h2
  · intro q
    constructor
    · rw [cmp_lt_iff]
      exact WithBot.bot_lt_coe _
    · rw [cmp_lt_iff]
      exact WithBot.coe_lt_coe.mpr (WithTop.coe_lt_top _)
  · rw [cmp_lt_iff]
    exact WithBot.bot_lt_coe _
  · rw [cmp_lt_iff]
    exact WithBot.coe_lt_coe.mpr (WithTop.coe_lt_top _)
  · rw [cmp_eq_iff]
    rfl
  · rw [cmp_eq_iff]
    rfl

/-- Comparison of two finite values in the `OrderedFloat` order model is
the rational comparison. -/
theorem fin_le_fin {q r : ℚ} : (F.fin q ≤ F.fin r) ↔ q ≤ r := by
  show F.key (F.fin q) ≤ F.key (F.fin r) ↔ q ≤ r
  rw [F.key, F.key, Prod.Lex.le_iff]
  simp

/-- For finite operands whose magnitude is at least `LO = MIN_POSITIVE*2`
and at most `MAX`, the standard midpoint is the exact arithmetic mean and
in particular stays finite: no intermediate step overflows. -/
theorem stdMidpoint_exact (s : FloatSpec) (a b : ℚ)
    (ha1 : s.minPositive * 2 ≤ |a|) (hb1 : s.minPositive * 2 ≤ |b|)
    (ha2 : |a| ≤ s.maxFinite) (hb2 : |b| ≤ s.maxFinite) :
    s.stdMidpoint (F.fin a) (F.fin b) = F.fin ((a + b) / 2) := by
  have haa := abs_le.mp ha2
  have hbb := abs_le.mp hb2
  unfold FloatSpec.stdMidpoint
  simp only [F.abs, F.leNum, F.ltNum, F.div2, Bool.and_eq_true,
    decide_eq_true_eq]
  split_ifs with h1 h2 h3
  · -- both magnitudes at most HI: (a + b) / 2, no overflow possible
    obtain ⟨ha', hb'⟩ := h1
    have ha3 := abs_le.mp ha'
    have hb3 := abs_le.mp hb'
    simp only [FloatSpec.add, FloatSpec.ofRat]
    rw [if_neg (by push_neg; linarith), if_neg (by push_neg; linarith)]
  · exact absurd h2 (not_lt.mpr ha1)
  · exact absurd h3 (not_lt.mpr hb1)
  · -- halve both operands first: (a / 2) + (b / 2)
    simp only [FloatSpec.add, FloatSpec.ofRat]
    rw [if_neg (by push_neg; linarith), if_neg (by push_neg; linarith)]
    have h0 : a / 2 + b / 2 = (a + b) / 2 := by ring
    rw [h0]

/-- Pushing `MIN = -MAX` and then `MAX` into a fresh engine yields the
balanced two-element state, whose `get` is the exact midpoint `0`. -/
theorem push_minmax (s : FloatSpec) (h1 : 0 < s.maxFinite)
    (h2 : s.minPositive * 2 ≤ s.maxFinite) :
    (Median.pushAll F.isNaN Median.new
        [F.fin (-s.maxFinite), F.fin s.maxFinite]).map
      (Median.get s.midpointTotal) = Except.ok (some (F.fin 0)) := by
  have habs1 : |(-s.maxFinite)| = s.maxFinite := by
    rw [abs_neg, abs_of_pos h1]
  have habs2 : |s.maxFinite| = s.maxFinite := abs_of_pos h1
  have hle : ¬(F.fin s.maxFinite ≤ F.fin (-s.maxFinite)) := by
    rw [fin_le_fin]
    intro hc
    linarith
  have e1 : (Median.new : Median F).pushVal (F.fin (-s.maxFinite))
      = ⟨[F.fin (-s.maxFinite)], []⟩ := by
    simp [Median.pushVal, Median.placeVal, Median.rebalance, Median.new,
      heapPushLo, List.orderedInsert]
  have e2 : (⟨[F.fin (-s.maxFinite)], []⟩ : Median F).pushVal
        (F.fin s.maxFinite)
      = ⟨[F.fin (-s.maxFinite)], [F.fin s.maxFinite]⟩ := by
    simp [Median.pushVal, Median.placeVal, Median.rebalance, heapPushHi,
      List.orderedInsert, hle]
  have emid : s.midpointTotal (F.fin (-s.maxFinite)) (F.fin s.maxFinite)
      = F.fin 0 := by
    unfold FloatSpec.midpointTotal FloatSpec.midpointImpl
    simp only [F.isNaN, F.isInfinite, Bool.or_self, Bool.false_and,
      Bool.and_false, Bool.false_eq_true, if_false, Option.getD_some]
    rw [stdMidpoint_exact s _ _ (by rw [habs1]; exact h2)
      (by rw [habs2]; exact h2) (le_of_eq habs1) (le_of_eq habs2)]
    have h0 : (-s.maxFinite + s.maxFinite) / 2 = 0 := by ring
    rw [h0]
  have e3 : (⟨[F.fin (-s.maxFinite)], [F.fin s.maxFinite]⟩ : Median F).get
        s.midpointTotal = some (F.fin 0) := by
    simp [Median.get, emid]
  simp only [Median.pushAll, Median.push, F.isNaN, Bool.false_eq_true,
    if_false, e1, e2]
  simp [Except.map, e3]

/-- C6: the midpoint is computed without intermediate overflow — for
extreme-magnitude finite operands (magnitude between `MIN_POSITIVE * 2`
and `MAX`) it returns the exact arithmetic mean, a finite value — and in
particular pushing `[f64::MIN, f64::MAX]` (with `MIN = -MAX`), and
likewise `[f32::MIN, f32::MAX]`, into a fresh engine makes `get()` return
exactly `0`, not an infinity. -/
theorem c6_midpoint_no_overflow :
    (∀ (s : FloatSpec) (a b : ℚ),
      s.minPositive * 2 ≤ |a| → s.minPositive * 2 ≤ |b| →
      |a| ≤ s.maxFinite → |b| ≤ s.maxFinite →
      s.stdMidpoint (F.fin a) (F.fin b) = F.fin ((a + b) / 2)) ∧
    (Median.pushAll F.isNaN Median.new
        [F.fin (-f64Spec.maxFinite), F.fin f64Spec.maxFinite]).map
      (Median.get f64Spec.midpointTotal) = Except.ok (some (F.fin 0)) ∧
    (Median.pushAll F.isNaN Median.new
        [F.fin (-f32Spec.maxFinite), F.fin f32Spec.maxFinite]).map
      (Median.get f32Spec.midpointTotal) = Except.ok (some (F.fin 0)) ∧
    f64Spec.midpointImpl (F.fin (-f64Spec.maxFinite))
      (F.fin f64Spec.maxFinite) = some (F.fin 0) ∧
    f32Spec.midpointImpl (F.fin (-f32Spec.maxFinite))
      (F.fin f32Spec.maxFinite) = some (F.fin 0) := by
  have h64a : (0 : ℚ) < f64Spec.maxFinite := by norm_num [f64Spec]
  have h64b : f64Spec.minPositive * 2 ≤ f64Spec.maxFinite := by
    norm_num [f64Spec]
  have h32a : (0 : ℚ) < f32Spec.maxFinite := by norm_num [f32Spec]
  have h32b : f32Spec.minPositive * 2 ≤ f32Spec.maxFinite := by
    norm_num [f32Spec]
  refine ⟨fun s a b => stdMidpoint_exact s a b,
    push_minmax f64Spec h64a h64b, push_minmax f32Spec h32a h32b, ?_, ?_⟩
  · unfold FloatSpec.midpointImpl
    simp only [F.isNaN, F.isInfinite, Bool.or_self, Bool.false_and,
      Bool.and_false, Bool.false_eq_true, if_false]
    rw [stdMidpoint_exact f64Spec _ _
      (by rw [abs_neg, abs_of_pos h64a]; exact h64b)
      (by rw [abs_of_pos h64a]; exact h64b)
      (le_of_eq (by rw [abs_neg, abs_of_pos h64a]))
      (le_of_eq (abs_of_pos h64a))]
    have h0 : (-f64Spec.maxFinite + f64Spec.maxFinite) / 2 = 0 := by ring
    rw [h0]
  · unfold FloatSpec.midpointImpl
    simp only [F.isNaN, F.isInfinite, Bool.or_self, Bool.false_and,
      Bool.and_false, Bool.false_eq_true, if_false]
    rw [stdMidpoint_exact f32Spec _ _
      (by rw [abs_neg, abs_of_pos h32a]; exact h32b)
      (by rw [abs_of_pos h32a]; exact h32b)
      (le_of_eq (by rw [abs_neg, abs_of_pos h32a]))
      (le_of_eq (abs_of_pos h32a))]
    have h0 : (-f32Spec.maxFinite + f32Spec.maxFinite) / 2 = 0 := by ring
    rw [h0]

/-- Witness for C6: the exact-mean conjunct applied at the `f64` extreme
operands `MIN` and `MAX`. -/
theorem c6_witness :
    f64Spec.stdMidpoint (F.fin (-f64Spec.maxFinite))
        (F.fin f64Spec.maxFinite)
      = F.fin ((-f64Spec.maxFinite + f64Spec.maxFinite) / 2) :=
  c6_midpoint_no_overflow.1 f64Spec (-f64Spec.maxFinite) f64Spec.maxFinite
    (by norm_num [f64Spec]) (by norm_num [f64Spec])
    (by norm_num [f64Spec]) (by norm_num [f64Spec])

/-- Witness for C7: transitivity applied at `1 < 2 < 3`, and the
signed-zero equality at `-0.0` versus `+0.0`. -/
theorem c7_witness :
    FC.cmp (FC.fin 1) (FC.fin 3) = Ordering.lt ∧
    FC.cmp FC.negZero (FC.fin 0) = Ordering.eq :=
  ⟨c7_cmp_total_order.2.1 (FC.fin 1) (FC.fin 2) (FC.fin 3)
      (by norm_num [FC.cmp, FC.numEq, FC.totalCmp])
      (by norm_num [FC.cmp, FC.numEq, FC.totalCmp]),
    c7_cmp_total_order.2.2.2.2.1⟩

end Claims

end RollingMedian
